import Mathlib

/-!
Verification of the pdarg repository: a shallow embedding of the
PDF table-of-contents extractor (`app.py`, class `PDFTOCExtractor`) and of
the Big Print Picker (`bpp.py`, class `BPPProcessor`).

Python floats are modelled by `ℚ`; machine strings by `String`;
`Optional[T]` by `Option T`; a function that may raise by `Except String`.
Every definition is translated from the source file it names, except for
`build_hierarchy`, which is modelled from the specification (the repository
ships no hierarchy-builder source; see its doc comment).
-/

namespace Pdarg

/-- Python `abs` on a rational (`abs(x)` in `app.py` / implicit in
`calculate_bbox_area` of `bpp.py`). -/
def ratAbs (q : ℚ) : ℚ := if q < 0 then -q else q

/-! ## Data model (`app.py`, `TOCEntryType`, `TOCEntry`, `TOCResult`) -/

/-- `app.py` `class TOCEntryType(Enum)`. -/
inductive TOCEntryType where
  | heading
  | page_reference
  | dot_leader
  | indented
deriving DecidableEq, Repr

/-- `app.py` `@dataclass class TOCEntry`. -/
structure TOCEntry where
  title : String
  page_number : Option Nat
  level : Nat
  confidence : ℚ
  raw_text : String
  bbox : Option (ℚ × ℚ × ℚ × ℚ) := none
  entry_type : TOCEntryType := TOCEntryType.heading
deriving DecidableEq, Repr

/-- `app.py` `@dataclass class TOCResult`; the free-form `metadata` dict is
modelled as an association list of strings. -/
structure TOCResult where
  entries : List TOCEntry
  method_used : String
  confidence_score : ℚ
  metadata : List (String × String)
deriving DecidableEq, Repr

/-! ## Line grouping (`app.py`, `PDFTOCExtractor._group_words_into_lines`) -/

/-- One word dict as produced by `pdfplumber`'s `extract_words` and consumed
by `_group_words_into_lines` / `_parse_toc_line`: the keys read by the code
are `text`, `x0`, `top`, `x1`, `bottom`. -/
structure Word where
  text : String
  x0 : ℚ
  top : ℚ
  x1 : ℚ
  bottom : ℚ
deriving DecidableEq, Repr

/-- The sort key of `sorted(words, key=lambda w: (w['top'], w['x0']))`:
lexicographic order on `(top, x0)`.  Python's sort is stable, and a stable
sort under a total preorder is exactly insertion sort placing an earlier
element before any later element with an equal key, which is what
`List.insertionSort` with this `≤`-style relation computes. -/
def wordKeyLe (a b : Word) : Prop :=
  a.top < b.top ∨ (a.top = b.top ∧ a.x0 ≤ b.x0)

instance : DecidableRel wordKeyLe := fun a b => by
  unfold wordKeyLe; infer_instance

instance : IsTotal Word wordKeyLe where
  total a b := by
    unfold wordKeyLe
    rcases lt_trichotomy a.top b.top with h | h | h
    · exact Or.inl (Or.inl h)
    · rcases le_total a.x0 b.x0 with hx | hx
      · exact Or.inl (Or.inr ⟨h, hx⟩)
      · exact Or.inr (Or.inr ⟨h.symm, hx⟩)
    · exact Or.inr (Or.inl h)

instance : IsTrans Word wordKeyLe where
  trans a b c hab hbc := by
    unfold wordKeyLe at hab hbc ⊢
    rcases hab with h1 | ⟨h1, h1x⟩
    · rcases hbc with h2 | ⟨h2, h2x⟩
      · exact Or.inl (h1.trans h2)
      · exact Or.inl (lt_of_lt_of_le h1 (le_of_eq h2))
    · rcases hbc with h2 | ⟨h2, h2x⟩
      · exact Or.inl (lt_of_le_of_lt (le_of_eq h1) h2)
      · exact Or.inr ⟨h1.trans h2, h1x.trans h2x⟩

/-- `sorted(words, key=lambda w: (w['top'], w['x0']))`. -/
def sortWords (words : List Word) : List Word :=
  List.insertionSort wordKeyLe words

/-- The sweep loop of `_group_words_into_lines`: `current` is
`current_line`, `current_top` the anchor; a word joins the current line
exactly when `abs(word['top'] - current_top) < 5`. -/
def groupWordsAux : List Word → List Word → ℚ → List (List Word)
  | [], current, _ => [current]
  | w :: ws, current, current_top =>
    if ratAbs (w.top - current_top) < 5 then
      groupWordsAux ws (current ++ [w]) current_top
    else
      current :: groupWordsAux ws [w] w.top

/-- `app.py` `PDFTOCExtractor._group_words_into_lines`. -/
def _group_words_into_lines (words : List Word) : List (List Word) :=
  match sortWords words with
  | [] => []
  | w :: ws => groupWordsAux ws [w] w.top

/-- The anchor (vertical position of the first word) of a line; `0` for an
empty line (which the grouper never emits). -/
def anchorTop : List Word → ℚ
  | [] => 0
  | w :: _ => w.top

/-! ## TOC line parsing (`app.py`, `PDFTOCExtractor._parse_toc_line`) -/

/-- A character the cleanup regex `[\.·]{2,}` treats as a dot-leader
character: an ASCII period or a middle dot. -/
def isLeaderChar (c : Char) : Bool := c == '.' || c == '·'

/-- State machine for `re.sub(r'[\.·]{2,}', '', s)`: runs of two or more
leader characters are deleted, single leader characters are kept.  The
`Bool` is true while skipping the remainder of a run already known to have
length at least two. -/
def stripLeaderRunsAux : Bool → List Char → List Char
  | _, [] => []
  | true, c :: cs =>
    if isLeaderChar c then stripLeaderRunsAux true cs
    else c :: stripLeaderRunsAux false cs
  | false, [c] => [c]
  | false, c :: d :: rest =>
    if isLeaderChar c && isLeaderChar d then stripLeaderRunsAux true rest
    else c :: stripLeaderRunsAux false (d :: rest)

/-- `re.sub(r'[\.·]{2,}', '', s)`. -/
def stripLeaderRuns (cs : List Char) : List Char := stripLeaderRunsAux false cs

/-- Python `str.strip()`: remove leading and trailing whitespace. -/
def stripWs (cs : List Char) : List Char :=
  ((cs.dropWhile Char.isWhitespace).reverse.dropWhile Char.isWhitespace).reverse

/-- The digit run captured by `re.search(r'(\d+)\s*$', text)`: the maximal
run of digits at the end of the text, ignoring trailing whitespace; `[]`
when the regex does not match. -/
def trailingDigits (cs : List Char) : List Char :=
  ((cs.reverse.dropWhile Char.isWhitespace).takeWhile Char.isDigit).reverse

/-- Python `int` on a (nonempty) digit string. -/
def natOfDigits (ds : List Char) : Nat :=
  ds.foldl (fun a c => a * 10 + (c.toNat - '0'.toNat)) 0

/-- Python `text.rfind(sub)`: the start index of the last occurrence of
`pat` in `cs`, or `none` when there is no occurrence (`-1` in Python). -/
def rfindSub (cs pat : List Char) : Option Nat :=
  ((List.range (cs.length + 1)).filter (fun i => pat.isPrefixOf (cs.drop i))).getLast?

/-- Python `sub in text` on character lists. -/
def containsSub (cs pat : List Char) : Bool :=
  (List.range (cs.length + 1)).any (fun i => pat.isPrefixOf (cs.drop i))

/-- `' '.join(word['text'] for word in line)`. -/
def lineText (line : List Word) : String :=
  String.intercalate " " (line.map Word.text)

/-- The title computed by `_parse_toc_line` from the joined line text and
the parsed page number:
`text[:text.rfind(str(page_number))].strip()` followed by
`re.sub(r'[\.·]{2,}', '', title_text).strip()`.  Python's `rfind` returns
`-1` when the pattern is absent, in which case `text[:-1]` drops the last
character. -/
def titleOf (cs : List Char) (page_number : Nat) : List Char :=
  let pre :=
    match rfindSub cs (Nat.repr page_number).toList with
    | some i => cs.take i
    | none => cs.dropLast
  stripWs (stripLeaderRuns (stripWs pre))

/-- `'...' in text or '....' in text` (the dot-leader confidence check of
`_parse_toc_line`; note it does not look at `·`). -/
def hasTripleDot (cs : List Char) : Bool :=
  containsSub cs "...".toList || containsSub cs "....".toList

/-- `app.py` `PDFTOCExtractor._parse_toc_line`.  The `page_num` argument is
accepted but, as in the source, never used. -/
def _parse_toc_line (line : List Word) (page_num : Nat) : Option TOCEntry :=
  match line with
  | [] => none
  | w :: rest =>
    let text := lineText (w :: rest)
    let cs := text.toList
    let ds := trailingDigits cs
    if ds.isEmpty then none
    else
      let page_number := natOfDigits ds
      if page_number < 1 || page_number > 1000 then none
      else
        let title := titleOf cs page_number
        if title.isEmpty then none
        else
          let c0 : ℚ := 7/10
          let c1 := if (title.headD 'a').isUpper then c0 + 1/10 else c0
          let c2 := if (Nat.repr page_number).toList.isSuffixOf cs then c1 + 1/10 else c1
          let c3 := if hasTripleDot cs then c2 + 1/10 else c2
          let lastW := (w :: rest).getLastD w
          some { title := String.mk title
                 page_number := some page_number
                 level := 0
                 confidence := c3
                 raw_text := text
                 bbox := some (w.x0, w.top, lastW.x1, lastW.bottom)
                 entry_type := if hasTripleDot cs then TOCEntryType.dot_leader
                               else TOCEntryType.page_reference }

/-- A run of at least two adjacent dot-leader characters (the pattern the
code's own cleanup regex `[\.·]{2,}` recognises): the natural reading of
"dot-leader characters are present". -/
def hasLeaderRun : List Char → Bool
  | [] => false
  | [_] => false
  | c :: d :: rest => (isLeaderChar c && isLeaderChar d) || hasLeaderRun (d :: rest)

/-! ## Overall confidence (`app.py`, `PDFTOCExtractor._calculate_confidence`) -/

/-- `app.py` `PDFTOCExtractor._calculate_confidence`:
average of the entry confidences, plus `0.1` when some entry has a page
number, plus `0.1` when the entries span more than one distinct level
(`len(set(levels)) > 1`), capped by `min(…, 1.0)`. -/
def _calculate_confidence (entries : List TOCEntry) : ℚ :=
  if entries = [] then 0
  else
    let avg_confidence := (entries.map TOCEntry.confidence).sum / (entries.length : ℚ)
    let has_page_numbers := entries.any (fun e => e.page_number.isSome)
    let has_varying_levels := 1 < ((entries.map TOCEntry.level).dedup).length
    let consistency_bonus : ℚ :=
      (if has_page_numbers then 1/10 else 0) + (if has_varying_levels then 1/10 else 0)
    min (avg_confidence + consistency_bonus) 1

/-! ## ML strategy per-entry boost (`app.py`, `PDFTOCExtractor._extract_via_ml`) -/

/-- The per-entry boost `entry.confidence *= 1.2` applied in
`_extract_via_ml` to every entry produced by `_parse_toc_line`. -/
def mlBoostEntry (e : TOCEntry) : TOCEntry :=
  { e with confidence := e.confidence * (12/10) }

/-- The inner loop of `_extract_via_ml` over the grouped lines of one
detected TOC page: parse each line with `_parse_toc_line(line, page_idx + 1)`
and boost each returned entry. -/
def mlEntriesOfLines (lines : List (List Word)) (page_idx : Nat) : List TOCEntry :=
  lines.filterMap (fun line => (_parse_toc_line line (page_idx + 1)).map mlBoostEntry)

/-! ## The arbiter loop (`app.py`, `PDFTOCExtractor.extract_from_file`)

A strategy method invocation `method(pdf_path, **kwargs)` is abstracted by
its observable outcome: it returns a `TOCResult`, returns `None`, or raises
an exception.  `extract_from_file` fixes the order of the five methods
(`_extract_native_toc`, `_extract_via_outline`, `_extract_via_text_analysis`,
`_extract_via_layout_analysis`, `_extract_via_ml`); here that trust order is
the order of the outcome list. -/

/-- The outcome of invoking one strategy method. -/
inductive MethodOutcome where
  | success (r : TOCResult)
  | nullResult
  | raises (msg : String)
deriving DecidableEq, Repr

/-- Increment the invocation counter, and the warning counter when the
invocation raised. -/
def bump (x : Option TOCResult × Nat × Nat) (isRaise : Bool) :
    Option TOCResult × Nat × Nat :=
  (x.1, x.2.1 + 1, x.2.2 + (if isRaise then 1 else 0))

/-- The `for method in methods` loop of `extract_from_file`, instrumented
with the number of methods invoked and the number of warnings recorded.
Carries `best_result` and `best_confidence` (initially `None` and `0`);
a returned result is adopted when `result.confidence_score > best_confidence`,
and iteration breaks when the adopted confidence exceeds `0.9`; an exception
is caught, warned about, and iteration continues. -/
def runMethods : List MethodOutcome → Option TOCResult → ℚ →
    Option TOCResult × Nat × Nat
  | [], best, _ => (best, 0, 0)
  | m :: ms, best, best_confidence =>
    match m with
    | .raises _ => bump (runMethods ms best best_confidence) true
    | .nullResult => bump (runMethods ms best best_confidence) false
    | .success res =>
      if best_confidence < res.confidence_score then
        if (9:ℚ)/10 < res.confidence_score then (some res, 1, 0)
        else bump (runMethods ms (some res) res.confidence_score) false
      else bump (runMethods ms best best_confidence) false

/-- The `TOCResult` returned when every strategy returned `None` or raised. -/
def emptyTOCResult : TOCResult :=
  { entries := []
    method_used := "none"
    confidence_score := 0
    metadata := [("error", "No TOC could be extracted")] }

/-- `app.py` `PDFTOCExtractor.extract_from_file`.  `fileExists` abstracts
`os.path.exists(pdf_path)`; a raised `FileNotFoundError` is the `Except.error`
branch.  After arbitration the winner's entries are filtered by
`entry.confidence >= self.min_confidence`. -/
def extract_from_file (fileExists : Bool) (pdf_path : String)
    (methods : List MethodOutcome) (min_confidence : ℚ) : Except String TOCResult :=
  if fileExists then
    match (runMethods methods none 0).1 with
    | none => Except.ok emptyTOCResult
    | some best =>
      Except.ok { best with entries := best.entries.filter (fun e => min_confidence ≤ e.confidence) }
  else
    Except.error ("PDF file not found: " ++ pdf_path)

/-- The results of the outcomes that returned one (in order). -/
def successes (l : List MethodOutcome) : List TOCResult :=
  l.filterMap (fun m => match m with | .success r => some r | _ => none)

/-- The number of outcomes that raised. -/
def countRaises (l : List MethodOutcome) : Nat :=
  l.countP (fun m => match m with | .raises _ => true | _ => false)

/-- The link between the two accumulators of `runMethods` as maintained by
the source (`best_result = None` goes with `best_confidence = 0`, otherwise
`best_confidence` is the adopted result's score). -/
def Linked (best : Option TOCResult) (best_confidence : ℚ) : Prop :=
  best_confidence = (match best with | none => 0 | some b => b.confidence_score)

/-! ## Hierarchy builder

Modelled from the spec: the repository source under `src/` contains no
hierarchy-building code (`app.py` stores a flat `level` per entry and never
nests entries), while the spec's produced interface requires
`build_hierarchy(flat_candidates) -> forest of OutlineNode` built with a
monotonic stack ("pop the stack while its top has rank ≥ the candidate's
rank; the candidate becomes a child of the new stack top if any remains,
otherwise it becomes a new root; push the candidate").  The definitions
below follow those words. -/

/-- Modelled from the spec: one flat heading candidate as consumed by the
hierarchy builder (title, page, rank). -/
structure FlatCandidate where
  title : String
  page : Option Nat
  rank : Nat
deriving DecidableEq, Repr

/-- Modelled from the spec: `OutlineNode` with `title`, `page`, `rank` and
ordered `children`. -/
inductive OutlineNode where
  | mk (title : String) (page : Option Nat) (rank : Nat) (children : List OutlineNode)

/-- The rank of an outline node. -/
def OutlineNode.rank : OutlineNode → Nat
  | .mk _ _ r _ => r

/-- The children of an outline node. -/
def OutlineNode.children : OutlineNode → List OutlineNode
  | .mk _ _ _ cs => cs

/-- Append `child` as the last child of `parent`. -/
def attachChild (parent child : OutlineNode) : OutlineNode :=
  match parent with
  | .mk ti pg rk cs => .mk ti pg rk (cs ++ [child])

/-- Modelled from the spec: the pop-while-rank-`≥` phase for an incoming
rank `r`.  The stack is kept top-first; each popped node is closed and
attached as the last child of the node below it (its parent, the stack top
after the pop), and a node popped from an emptied stack is a finished root.
The popped prefix is exactly `takeWhile (r ≤ rank)` since attaching children
never changes a rank, and closing it bottom-up is the left fold below. -/
def popAttach (r : Nat) (stack roots : List OutlineNode) :
    List OutlineNode × List OutlineNode :=
  let popped := stack.takeWhile (fun t => decide (r ≤ t.rank))
  let rest := stack.dropWhile (fun t => decide (r ≤ t.rank))
  match popped with
  | [] => (stack, roots)
  | t :: ts =>
    let merged := ts.foldl (fun child parent => attachChild parent child) t
    match rest with
    | [] => ([], roots ++ [merged])
    | p :: ps => (attachChild p merged :: ps, roots)

/-- Modelled from the spec: process one flat candidate — pop/attach, then
push the candidate as a fresh open node. -/
def buildStep (acc : List OutlineNode × List OutlineNode) (c : FlatCandidate) :
    List OutlineNode × List OutlineNode :=
  (OutlineNode.mk c.title c.page c.rank [] :: (popAttach c.rank acc.1 acc.2).1,
   (popAttach c.rank acc.1 acc.2).2)

/-- Modelled from the spec: `build_hierarchy(flat_candidates)` — a single
left-to-right pass over the candidates followed by closing every still-open
ancestor (popping with rank `0` closes the whole stack, since every rank is
`≥ 0`). -/
def build_hierarchy (cs : List FlatCandidate) : List OutlineNode :=
  let (stack, roots) := cs.foldl buildStep ([], [])
  (popAttach 0 stack roots).2

/-- Every node of the tree has rank strictly greater than its parent's rank:
the spec's hierarchy invariant, stated recursively. -/
inductive RanksOk : OutlineNode → Prop where
  | intro (n : OutlineNode)
      (hlt : ∀ c ∈ n.children, n.rank < c.rank)
      (hrec : ∀ c ∈ n.children, RanksOk c) : RanksOk n

/-! ## Big Print Picker (`bpp.py`, `BPPProcessor`) -/

/-- One `LTChar` together with the context `process_char` receives:
the page number and the containing line's text and bounding box. -/
structure CharItem where
  char : String
  x0 : ℚ
  y0 : ℚ
  x1 : ℚ
  y1 : ℚ
  fontname : String
  size : ℚ
  page : Nat
  line_text : String
  line_bbox : ℚ × ℚ × ℚ × ℚ
deriving DecidableEq, Repr

/-- The dict appended to `self.large_chars`. -/
structure LargeCharRec where
  char : String
  area : ℚ
  page : Nat
  bbox : ℚ × ℚ × ℚ × ℚ
  line_text : String
  line_bbox : ℚ × ℚ × ℚ × ℚ
  fontname : String
  size : ℚ
deriving DecidableEq, Repr

/-- The mutable state of a `BPPProcessor` touched by `process_char`. -/
structure BPPState where
  min_area : ℚ
  large_chars : List LargeCharRec
  lines_with_large_chars : List String
deriving DecidableEq, Repr

/-- `bpp.py` `BPPProcessor.calculate_bbox_area`. -/
def calculate_bbox_area (bbox : ℚ × ℚ × ℚ × ℚ) : ℚ :=
  let (x1, y1, x2, y2) := bbox
  let width := ratAbs (x2 - x1)
  let height := ratAbs (y2 - y1)
  width * height

/-- The `f"[Page {page_num}] {line_text}"` key used for deduplication. -/
def lineEntryOf (page : Nat) (line_text : String) : String :=
  "[Page " ++ Nat.repr page ++ "] " ++ line_text

/-- The record appended to `large_chars` for a large character. -/
def recordOf (c : CharItem) : LargeCharRec :=
  { char := c.char
    area := calculate_bbox_area (c.x0, c.y0, c.x1, c.y1)
    page := c.page
    bbox := (c.x0, c.y0, c.x1, c.y1)
    line_text := c.line_text
    line_bbox := c.line_bbox
    fontname := c.fontname
    size := c.size }

/-- `bpp.py` `BPPProcessor.process_char`. -/
def process_char (s : BPPState) (c : CharItem) : BPPState :=
  let area := calculate_bbox_area (c.x0, c.y0, c.x1, c.y1)
  if s.min_area < area then
    let s' := { s with large_chars := s.large_chars ++ [recordOf c] }
    let line_entry := lineEntryOf c.page c.line_text
    if s'.lines_with_large_chars.contains line_entry then s'
    else { s' with lines_with_large_chars := s'.lines_with_large_chars ++ [line_entry] }
  else s

/-- Processing a whole document boils down to folding `process_char` over
the sequence of characters visited by `process_pdf`/`process_page`/
`process_text_line`, starting from the freshly initialised state. -/
def processChars (min_area : ℚ) (cs : List CharItem) : BPPState :=
  cs.foldl process_char { min_area := min_area, large_chars := [], lines_with_large_chars := [] }

/-! ## Concrete inputs used by the example, witness and counterexample
theorems below -/

/-- A strategy result of confidence `1`, as `_extract_native_toc` produces. -/
def nativeHit : TOCResult :=
  { entries := [], method_used := "native_toc", confidence_score := 1,
    metadata := [("source", "PDF native outline")] }

/-- Entry with confidence `0.9`. -/
def entry09 : TOCEntry :=
  { title := "One", page_number := some 1, level := 0, confidence := 9/10, raw_text := "One 1" }

/-- Entry with confidence `0.75`. -/
def entry075 : TOCEntry :=
  { title := "Two", page_number := some 2, level := 0, confidence := 75/100, raw_text := "Two 2" }

/-- Entry with confidence `0.85`. -/
def entry085 : TOCEntry :=
  { title := "Three", page_number := some 3, level := 0, confidence := 85/100, raw_text := "Three 3" }

/-- A winning strategy result whose entries have confidences
`[0.9, 0.75, 0.85]`. -/
def winner2 : TOCResult :=
  { entries := [entry09, entry075, entry085], method_used := "text_analysis",
    confidence_score := 1, metadata := [] }

/-- A word at a given vertical position (`top`) and horizontal position. -/
def wAt (t x : ℚ) : Word := { text := "w", x0 := x, top := t, x1 := x, bottom := t }

/-- The two-word line `"A.." "5"` (two adjacent dot-leader characters but no
run of three). -/
def lineA5 : List Word :=
  [{ text := "A..", x0 := 0, top := 0, x1 := 2, bottom := 1 },
   { text := "5", x0 := 3, top := 0, x1 := 4, bottom := 1 }]

/-- What `_parse_toc_line` returns on `lineA5`. -/
def entryA5 : TOCEntry :=
  { title := "A", page_number := some 5, level := 0,
    confidence := 7/10 + 1/10 + 1/10, raw_text := "A.. 5",
    bbox := some (0, 0, 4, 1), entry_type := TOCEntryType.page_reference }

/-- The three-word line `"Chapter" "..." "5"`. -/
def lineChapter : List Word :=
  [{ text := "Chapter", x0 := 0, top := 0, x1 := 7, bottom := 1 },
   { text := "...", x0 := 8, top := 0, x1 := 11, bottom := 1 },
   { text := "5", x0 := 12, top := 0, x1 := 13, bottom := 1 }]

/-- What `_parse_toc_line` returns on `lineChapter`. -/
def entryChapter : TOCEntry :=
  { title := "Chapter", page_number := some 5, level := 0,
    confidence := 7/10 + 1/10 + 1/10 + 1/10, raw_text := "Chapter ... 5",
    bbox := some (0, 0, 13, 1), entry_type := TOCEntryType.dot_leader }

/-- Entry with confidence `0.9`, page `1`, level `0`. -/
def e7a : TOCEntry :=
  { title := "One", page_number := some 1, level := 0, confidence := 9/10, raw_text := "One 1" }

/-- Entry with confidence `0.7`, page `2`, level `1`. -/
def e7b : TOCEntry :=
  { title := "Two", page_number := some 2, level := 1, confidence := 7/10, raw_text := "Two 2" }

/-- Two entries for the overall-confidence witness: average `0.8`, page
numbers present, two distinct levels. -/
def entriesC7 : List TOCEntry := [e7a, e7b]

/-- The three-word line `"Intro" "..." "7"` fed to the ML strategy. -/
def lineIntro : List Word :=
  [{ text := "Intro", x0 := 0, top := 0, x1 := 5, bottom := 1 },
   { text := "...", x0 := 6, top := 0, x1 := 9, bottom := 1 },
   { text := "7", x0 := 10, top := 0, x1 := 11, bottom := 1 }]

/-- The entry the ML strategy emits for `lineIntro`: parser confidence `1.0`
boosted by `× 1.2` with no clamping. -/
def entryIntro : TOCEntry :=
  { title := "Intro", page_number := some 7, level := 0,
    confidence := (7/10 + 1/10 + 1/10 + 1/10) * (12/10), raw_text := "Intro ... 7",
    bbox := some (0, 0, 11, 1), entry_type := TOCEntryType.dot_leader }

/-- The flat candidate sequence with ranks `[0, 1, 2, 0, 1]`. -/
def candsC8 : List FlatCandidate :=
  [⟨"a", none, 0⟩, ⟨"b", none, 1⟩, ⟨"c", none, 2⟩, ⟨"d", none, 0⟩, ⟨"e", none, 1⟩]

/-- The forest the spec requires for ranks `[0, 1, 2, 0, 1]`. -/
def forestC8 : List OutlineNode :=
  [.mk "a" none 0 [.mk "b" none 1 [.mk "c" none 2 []]],
   .mk "d" none 0 [.mk "e" none 1 []]]

/-! # Theorems -/

/-! ## Helper lemmas -/

theorem ratAbs_eq_abs (q : ℚ) : ratAbs q = |q| := by
  unfold ratAbs
  split
  · rw [abs_of_neg (by assumption)]
  · rw [abs_of_nonneg (not_lt.mp (by assumption))]

theorem process_char_min_area (s : BPPState) (c : CharItem) :
    (process_char s c).min_area = s.min_area := by
  unfold process_char
  dsimp only
  split
  · split <;> rfl
  · rfl

theorem process_char_large (s : BPPState) (c : CharItem) :
    (process_char s c).large_chars =
      if s.min_area < calculate_bbox_area (c.x0, c.y0, c.x1, c.y1) then
        s.large_chars ++ [recordOf c]
      else s.large_chars := by
  unfold process_char
  dsimp only
  split
  · split <;> simp_all
  · simp_all

theorem process_char_lines_nodup (s : BPPState) (c : CharItem)
    (h : s.lines_with_large_chars.Nodup) :
    (process_char s c).lines_with_large_chars.Nodup := by
  unfold process_char
  dsimp only
  split
  · split
    · exact h
    · rename_i hmem
      have hnotmem : lineEntryOf c.page c.line_text ∉ s.lines_with_large_chars := by
        intro hx
        exact hmem (List.elem_iff.mpr hx)
      simp only [List.nodup_append, List.nodup_cons, List.nodup_nil, List.disjoint_singleton]
      exact ⟨h, by simp, by simpa using hnotmem⟩
  · exact h

theorem processChars_aux (cs : List CharItem) (s : BPPState) :
    (cs.foldl process_char s).min_area = s.min_area ∧
    (cs.foldl process_char s).large_chars =
      s.large_chars ++
        (cs.filter
          (fun c => decide (s.min_area < calculate_bbox_area (c.x0, c.y0, c.x1, c.y1)))).map
          recordOf ∧
    (s.lines_with_large_chars.Nodup →
      (cs.foldl process_char s).lines_with_large_chars.Nodup) := by
  induction cs generalizing s with
  | nil => exact ⟨rfl, by simp, fun h => h⟩
  | cons c cs ih =>
    obtain ⟨ih1, ih2, ih3⟩ := ih (process_char s c)
    refine ⟨ih1.trans (process_char_min_area s c), ?_, ?_⟩
    · rw [List.foldl_cons, ih2, process_char_min_area, process_char_large,
        List.filter_cons]
      by_cases hc : s.min_area < calculate_bbox_area (c.x0, c.y0, c.x1, c.y1)
      · simp [hc]
      · simp [hc]
    · intro h
      exact ih3 (process_char_lines_nodup s c h)

/-! ## C10 -/

/-- C10: in the Big Print Picker, for every processed character sequence a
character is recorded in `large_chars` exactly when its bounding-box area
`|x1 − x0| · |y1 − y0|` (which is what `calculate_bbox_area` computes) is
strictly greater than `min_area` — the recorded list is precisely the
in-order image of the characters passing that test — and
`lines_with_large_chars` never contains duplicates. -/
theorem c10_bpp_invariants (min_area : ℚ) (cs : List CharItem) :
    (∀ x0 y0 x1 y1 : ℚ, calculate_bbox_area (x0, y0, x1, y1) = |x1 - x0| * |y1 - y0|)
    ∧ (processChars min_area cs).large_chars =
      (cs.filter
        (fun c => decide (min_area < calculate_bbox_area (c.x0, c.y0, c.x1, c.y1)))).map
        recordOf
    ∧ (processChars min_area cs).lines_with_large_chars.Nodup := by
  obtain ⟨h1, h2, h3⟩ :=
    processChars_aux cs
      { min_area := min_area, large_chars := [], lines_with_large_chars := [] }
  refine ⟨?_, ?_, ?_⟩
  · intro x0 y0 x1 y1
    unfold calculate_bbox_area
    dsimp only
    rw [ratAbs_eq_abs, ratAbs_eq_abs]
  · simpa using h2
  · exact h3 (by simp)

/-! ## C4 -/

/-- C4: when the input file does not exist, `extract_from_file` raises
`FileNotFoundError` (the `Except.error` branch) — independently of what any
strategy would do, i.e. before any strategy method is invoked — and when
the file exists it always returns a well-formed result, so the missing-file
condition is the only error that propagates. -/
theorem c4_input_not_found (pdf_path : String) (methods : List MethodOutcome)
    (min_confidence : ℚ) :
    extract_from_file false pdf_path methods min_confidence =
      Except.error ("PDF file not found: " ++ pdf_path)
    ∧ ∃ r, extract_from_file true pdf_path methods min_confidence = Except.ok r := by
  refine ⟨rfl, ?_⟩
  unfold extract_from_file
  cases h : (runMethods methods none 0).1 with
  | none => exact ⟨emptyTOCResult, by simp [h]⟩
  | some best =>
    exact ⟨{ best with
              entries := best.entries.filter (fun e => min_confidence ≤ e.confidence) },
           by simp [h]⟩

/-! ## C8: hierarchy builder -/

@[simp] theorem OutlineNode.rank_mk (t : String) (pg : Option Nat) (r : Nat)
    (cs : List OutlineNode) : (OutlineNode.mk t pg r cs).rank = r := rfl

@[simp] theorem OutlineNode.children_mk (t : String) (pg : Option Nat) (r : Nat)
    (cs : List OutlineNode) : (OutlineNode.mk t pg r cs).children = cs := rfl

@[simp] theorem attachChild_rank (p c : OutlineNode) :
    (attachChild p c).rank = p.rank := by
  cases p; rfl

@[simp] theorem attachChild_children (p c : OutlineNode) :
    (attachChild p c).children = p.children ++ [c] := by
  cases p; rfl

theorem ranksOk_leaf (t : String) (pg : Option Nat) (r : Nat) :
    RanksOk (OutlineNode.mk t pg r []) :=
  RanksOk.intro _ (fun c hc => absurd hc (List.not_mem_nil c))
    (fun c hc => absurd hc (List.not_mem_nil c))

theorem ranksOk_attach (p c : OutlineNode) (hp : RanksOk p) (hc : RanksOk c)
    (h : p.rank < c.rank) : RanksOk (attachChild p c) := by
  cases hp with
  | intro _ hlt hrec =>
    refine RanksOk.intro _ ?_ ?_ <;> intro x hx <;>
      rw [attachChild_children] at hx <;>
      rcases List.mem_append.mp hx with hx' | hx'
    · rw [attachChild_rank]; exact hlt x hx'
    · rw [attachChild_rank, List.mem_singleton.mp hx']; exact h
    · exact hrec x hx'
    · rw [List.mem_singleton.mp hx']; exact hc

theorem foldAttach_ok (ts : List OutlineNode) (acc : OutlineNode)
    (hacc : RanksOk acc) (hts : ∀ x ∈ ts, RanksOk x)
    (hch : List.Pairwise (fun a b => b.rank < a.rank) (acc :: ts)) :
    RanksOk (ts.foldl (fun child parent => attachChild parent child) acc)
    ∧ ∃ x ∈ acc :: ts,
        (ts.foldl (fun child parent => attachChild parent child) acc).rank = x.rank := by
  induction ts generalizing acc with
  | nil => exact ⟨hacc, acc, by simp, rfl⟩
  | cons p ps ih =>
    obtain ⟨haccAll, hch'⟩ := List.pairwise_cons.mp hch
    have hp : RanksOk p := hts p (by simp)
    have hpa : p.rank < acc.rank := haccAll p (by simp)
    have hacc' : RanksOk (attachChild p acc) := ranksOk_attach p acc hp hacc hpa
    have hch'' :
        List.Pairwise (fun a b => b.rank < a.rank) (attachChild p acc :: ps) := by
      obtain ⟨hpAll, hps⟩ := List.pairwise_cons.mp hch'
      exact List.pairwise_cons.mpr ⟨fun b hb => by simpa using hpAll b hb, hps⟩
    obtain ⟨hR, x, hxmem, hxrank⟩ :=
      ih (attachChild p acc) hacc' (fun y hy => hts y (by simp [hy])) hch''
    refine ⟨hR, ?_⟩
    rcases List.mem_cons.mp hxmem with rfl | hx'
    · exact ⟨p, by simp, by simpa using hxrank⟩
    · exact ⟨x, by simp [hx'], hxrank⟩

theorem dropWhile_rank_lt (r : Nat) (l : List OutlineNode)
    (hp : List.Pairwise (fun a b => b.rank < a.rank)
      (l.dropWhile (fun t => decide (r ≤ t.rank)))) :
    ∀ n ∈ l.dropWhile (fun t => decide (r ≤ t.rank)), n.rank < r := by
  induction l with
  | nil => intro n hn; cases hn
  | cons a l ih =>
    by_cases ha : r ≤ a.rank
    · rw [List.dropWhile_cons, if_pos (by simpa using ha)] at hp ⊢
      exact ih hp
    · rw [List.dropWhile_cons, if_neg (by simpa using ha)] at hp ⊢
      intro n hn
      rcases List.mem_cons.mp hn with rfl | hn'
      · exact lt_of_not_ge ha
      · exact ((List.pairwise_cons.mp hp).1 n hn').trans (lt_of_not_ge ha)

theorem popAttach_ok (r : Nat) (stack roots : List OutlineNode)
    (h1 : List.Pairwise (fun a b => b.rank < a.rank) stack)
    (h2 : ∀ n ∈ stack, RanksOk n) (h3 : ∀ n ∈ roots, RanksOk n) :
    List.Pairwise (fun a b => b.rank < a.rank) (popAttach r stack roots).1
    ∧ (∀ n ∈ (popAttach r stack roots).1, RanksOk n)
    ∧ (∀ n ∈ (popAttach r stack roots).2, RanksOk n)
    ∧ (∀ n ∈ (popAttach r stack roots).1, n.rank < r) := by
  have hsplit :
      stack.takeWhile (fun t => decide (r ≤ t.rank)) ++
        stack.dropWhile (fun t => decide (r ≤ t.rank)) = stack :=
    List.takeWhile_append_dropWhile _ _
  have hpw : List.Pairwise (fun a b => b.rank < a.rank)
      (stack.takeWhile (fun t => decide (r ≤ t.rank)) ++
        stack.dropWhile (fun t => decide (r ≤ t.rank))) := by
    rw [hsplit]; exact h1
  obtain ⟨hpw_take, hpw_drop, hcross⟩ := List.pairwise_append.mp hpw
  have hdrop_lt := dropWhile_rank_lt r stack hpw_drop
  have hmem_take : ∀ n ∈ stack.takeWhile (fun t => decide (r ≤ t.rank)), n ∈ stack :=
    fun n hn => by rw [← hsplit]; exact List.mem_append_left _ hn
  have hmem_drop : ∀ n ∈ stack.dropWhile (fun t => decide (r ≤ t.rank)), n ∈ stack :=
    fun n hn => by rw [← hsplit]; exact List.mem_append_right _ hn
  cases htake : stack.takeWhile (fun t => decide (r ≤ t.rank)) with
  | nil =>
    have hstack_eq : stack.dropWhile (fun t => decide (r ≤ t.rank)) = stack := by
      conv_rhs => rw [← hsplit]
      rw [htake, List.nil_append]
    have hres : popAttach r stack roots = (stack, roots) := by
      simp only [popAttach, htake]
    rw [hres]
    exact ⟨h1, h2, h3, fun n hn => hdrop_lt n (by rw [hstack_eq]; exact hn)⟩
  | cons t ts =>
    rw [htake] at hpw_take hcross hmem_take
    have hfold := foldAttach_ok ts t (h2 t (hmem_take t (by simp)))
      (fun x hx => h2 x (hmem_take x (by simp [hx]))) hpw_take
    obtain ⟨hmerged, x, hxmem, hxrank⟩ := hfold
    cases hdropeq : stack.dropWhile (fun t => decide (r ≤ t.rank)) with
    | nil =>
      have hres : popAttach r stack roots =
          ([], roots ++ [ts.foldl (fun child parent => attachChild parent child) t]) := by
        simp only [popAttach, htake, hdropeq]
      rw [hres]
      refine ⟨by simp, by simp, ?_, by simp⟩
      intro n hn
      rcases List.mem_append.mp hn with hn' | hn'
      · exact h3 n hn'
      · rw [List.mem_singleton.mp hn']; exact hmerged
    | cons p ps =>
      rw [hdropeq] at hpw_drop hcross hdrop_lt hmem_drop
      have hp_lt_x : p.rank < x.rank := hcross x hxmem p (by simp)
      have hp_lt_merged : p.rank <
          (ts.foldl (fun child parent => attachChild parent child) t).rank := by
        rw [hxrank]; exact hp_lt_x
      have hattach : RanksOk (attachChild p
          (ts.foldl (fun child parent => attachChild parent child) t)) :=
        ranksOk_attach _ _ (h2 p (hmem_drop p (by simp))) hmerged hp_lt_merged
      obtain ⟨hpAll, hps⟩ := List.pairwise_cons.mp hpw_drop
      have hres : popAttach r stack roots =
          (attachChild p (ts.foldl (fun child parent => attachChild parent child) t) :: ps,
           roots) := by
        simp only [popAttach, htake, hdropeq]
      rw [hres]
      refine ⟨?_, ?_, h3, ?_⟩
      · exact List.pairwise_cons.mpr ⟨fun b hb => by simpa using hpAll b hb, hps⟩
      · intro n hn
        rcases List.mem_cons.mp hn with rfl | hn'
        · exact hattach
        · exact h2 n (hmem_drop n (by simp [hn']))
      · intro n hn
        rcases List.mem_cons.mp hn with rfl | hn'
        · simpa using hdrop_lt p (by simp)
        · exact hdrop_lt n (by simp [hn'])

theorem buildFold_ok (cs : List FlatCandidate) (stack roots : List OutlineNode)
    (h1 : List.Pairwise (fun a b => b.rank < a.rank) stack)
    (h2 : ∀ n ∈ stack, RanksOk n) (h3 : ∀ n ∈ roots, RanksOk n) :
    List.Pairwise (fun a b => b.rank < a.rank) (cs.foldl buildStep (stack, roots)).1
    ∧ (∀ n ∈ (cs.foldl buildStep (stack, roots)).1, RanksOk n)
    ∧ (∀ n ∈ (cs.foldl buildStep (stack, roots)).2, RanksOk n) := by
  induction cs generalizing stack roots with
  | nil => exact ⟨h1, h2, h3⟩
  | cons c cs ih =>
    obtain ⟨p1, p2, p3, p4⟩ := popAttach_ok c.rank stack roots h1 h2 h3
    rw [List.foldl_cons,
      show buildStep (stack, roots) c =
        (OutlineNode.mk c.title c.page c.rank [] :: (popAttach c.rank stack roots).1,
         (popAttach c.rank stack roots).2) from rfl]
    apply ih
    · exact List.pairwise_cons.mpr ⟨fun b hb => by simpa using p4 b hb, p1⟩
    · intro n hn
      rcases List.mem_cons.mp hn with rfl | hn'
      · exact ranksOk_leaf _ _ _
      · exact p2 n hn'
    · exact p3

/-- C8: the hierarchy-building operation `build_hierarchy` (modelled from
the spec; the repository ships no hierarchy-builder source) converts a flat
candidate sequence into a forest via a monotonic stack with a
pop-while-rank-`≥` condition; on the rank sequence `[0,1,2,0,1]` it yields
exactly the forest
`[(rank 0, [(rank 1, [(rank 2)])]), (rank 0, [(rank 1)])]`, and for every
input every node's rank is strictly greater than its parent's rank. -/
theorem c8_build_hierarchy :
    build_hierarchy candsC8 = forestC8
    ∧ ∀ (cs : List FlatCandidate) (n : OutlineNode), n ∈ build_hierarchy cs → RanksOk n := by
  constructor
  · rfl
  · intro cs n hn
    obtain ⟨p1, p2, p3⟩ :=
      buildFold_ok cs [] [] (by simp) (fun n hn => absurd hn (List.not_mem_nil n))
        (fun n hn => absurd hn (List.not_mem_nil n))
    obtain ⟨-, -, q3, -⟩ :=
      popAttach_ok 0 (cs.foldl buildStep ([], [])).1 (cs.foldl buildStep ([], [])).2
        p1 p2 p3
    exact q3 n hn

/-- Witness for C8: the invariant, instantiated on the singleton candidate
list, applies to the single produced root. -/
theorem c8_build_hierarchy_witness : RanksOk (OutlineNode.mk "a" none 0 []) :=
  c8_build_hierarchy.2 [⟨"a", none, 0⟩] (OutlineNode.mk "a" none 0 [])
    (show OutlineNode.mk "a" none 0 [] ∈ [OutlineNode.mk "a" none 0 []] from
      List.mem_singleton.mpr rfl)

/-! ## C5: line grouping -/

theorem groupWordsAux_join (ws : List Word) :
    ∀ (cur : List Word) (t : ℚ), (groupWordsAux ws cur t).flatten = cur ++ ws := by
  induction ws with
  | nil => intro cur t; simp [groupWordsAux]
  | cons w ws ih =>
    intro cur t
    rw [groupWordsAux]
    split
    · rw [ih]; simp
    · rw [List.flatten_cons, ih]; simp

theorem groupWordsAux_shape (ws : List Word) :
    ∀ (cur : List Word) (t : ℚ), cur ≠ [] →
      ∃ ext ls, groupWordsAux ws cur t = (cur ++ ext) :: ls := by
  induction ws with
  | nil => intro cur t _; exact ⟨[], [], by simp [groupWordsAux]⟩
  | cons w ws ih =>
    intro cur t hcur
    rw [groupWordsAux]
    split
    · obtain ⟨ext, ls, hext⟩ := ih (cur ++ [w]) t (by simp)
      exact ⟨[w] ++ ext, ls, by rw [hext]; simp⟩
    · exact ⟨[], groupWordsAux ws [w] w.top, by simp⟩

theorem groupWordsAux_close (ws : List Word) :
    ∀ (a : Word) (tl : List Word) (t : ℚ), a.top = t →
      (∀ w ∈ a :: tl, ratAbs (w.top - t) < 5) →
      ∀ l ∈ groupWordsAux ws (a :: tl) t,
        ∃ b bs, l = b :: bs ∧ ∀ w ∈ l, ratAbs (w.top - b.top) < 5 := by
  induction ws with
  | nil =>
    intro a tl t ha hclose l hl
    rw [groupWordsAux] at hl
    rw [List.mem_singleton.mp hl]
    exact ⟨a, tl, rfl, fun w hw => ha ▸ hclose w hw⟩
  | cons w ws ih =>
    intro a tl t ha hclose l hl
    rw [groupWordsAux] at hl
    split at hl
    · rw [show (a :: tl) ++ [w] = a :: (tl ++ [w]) from rfl] at hl
      refine ih a (tl ++ [w]) t ha ?_ l hl
      intro v hv
      rcases List.mem_cons.mp hv with rfl | hv'
      · exact hclose v (by simp)
      · rcases List.mem_append.mp hv' with hv'' | hv''
        · exact hclose v (by simp [hv''])
        · rw [List.mem_singleton.mp hv'']
          assumption
    · rcases List.mem_cons.mp hl with rfl | hl'
      · exact ⟨a, tl, rfl, fun v hv => ha ▸ hclose v hv⟩
      · refine ih w [] w.top rfl ?_ l hl'
        intro v hv
        rw [List.mem_singleton.mp hv, sub_self]
        rw [show ratAbs 0 = 0 from rfl]
        norm_num

theorem groupWordsAux_chain (ws : List Word) :
    ∀ (a : Word) (tl : List Word) (t : ℚ), a.top = t →
      List.Chain' (fun l1 l2 => 5 ≤ ratAbs (anchorTop l2 - anchorTop l1))
        (groupWordsAux ws (a :: tl) t) := by
  induction ws with
  | nil => intro a tl t _; rw [groupWordsAux]; exact List.chain'_singleton _
  | cons w ws ih =>
    intro a tl t ha
    rw [groupWordsAux]
    split
    · rw [show (a :: tl) ++ [w] = a :: (tl ++ [w]) from rfl]
      exact ih a (tl ++ [w]) t ha
    · refine List.chain'_cons'.mpr ⟨?_, ih w [] w.top rfl⟩
      intro y hy
      obtain ⟨ext, ls, hext⟩ := groupWordsAux_shape ws [w] w.top (by simp)
      rw [hext] at hy
      simp only [List.head?_cons, Option.mem_def, Option.some.injEq] at hy
      rw [← hy]
      show 5 ≤ ratAbs (anchorTop (w :: ext) - anchorTop (a :: tl))
      rw [show anchorTop (w :: ext) = w.top from rfl,
        show anchorTop (a :: tl) = a.top from rfl, ha]
      exact le_of_not_lt (by assumption)

/-- C5 (amended): `_group_words_into_lines` sorts the words by
(vertical position, horizontal position) with Python's stable sort and
sweeps once; it maps empty input to empty output; the emitted lines
partition the sorted sequence; within a line every word's vertical position
differs from the line's anchor (first word) by strictly less than the
tolerance `5`, and each new line's anchor differs from the previous line's
anchor by at least `5` — i.e. a new line is started exactly when the
vertical position differs from the current anchor by `5` or more (not
"strictly more than `5`", which the counterexample refutes); words at
vertical positions `[10, 12, 50, 51]` group into the two lines
`{10, 12}` and `{50, 51}`. -/
theorem c5_group_words (words : List Word) :
    _group_words_into_lines [] = ([] : List (List Word))
    ∧ List.Sorted wordKeyLe (sortWords words)
    ∧ (sortWords words).Perm words
    ∧ (_group_words_into_lines words).flatten = sortWords words
    ∧ (∀ l ∈ _group_words_into_lines words,
        ∃ b bs, l = b :: bs ∧ ∀ w ∈ l, ratAbs (w.top - b.top) < 5)
    ∧ List.Chain' (fun l1 l2 => 5 ≤ ratAbs (anchorTop l2 - anchorTop l1))
        (_group_words_into_lines words)
    ∧ _group_words_into_lines [wAt 10 0, wAt 12 1, wAt 50 2, wAt 51 3] =
        [[wAt 10 0, wAt 12 1], [wAt 50 2, wAt 51 3]] := by
  refine ⟨rfl, List.sorted_insertionSort wordKeyLe words,
    List.perm_insertionSort wordKeyLe words, ?_, ?_, ?_, ?_⟩
  · unfold _group_words_into_lines
    cases hs : sortWords words with
    | nil => simp
    | cons w ws => rw [groupWordsAux_join]; rfl
  · intro l hl
    unfold _group_words_into_lines at hl
    cases hs : sortWords words with
    | nil => rw [hs] at hl; cases hl
    | cons w ws =>
      rw [hs] at hl
      refine groupWordsAux_close ws w [] w.top rfl ?_ l hl
      intro v hv
      rw [List.mem_singleton.mp hv, sub_self]
      rw [show ratAbs 0 = 0 from rfl]
      norm_num
  · unfold _group_words_into_lines
    cases hs : sortWords words with
    | nil => exact List.chain'_nil
    | cons w ws => exact groupWordsAux_chain ws w [] w.top rfl
  · have h0 : _group_words_into_lines [wAt 10 0, wAt 12 1, wAt 50 2, wAt 51 3] =
        groupWordsAux [wAt 12 1, wAt 50 2, wAt 51 3] [wAt 10 0] (wAt 10 0).top := rfl
    rw [h0]
    norm_num [groupWordsAux, ratAbs, wAt]

/-- Witness for C5: the amended grouping theorem applied to the concrete
four-word document; the first emitted line `{10, 12}` is anchored at `10`
and both its words lie strictly within the tolerance of the anchor. -/
theorem c5_group_words_witness :
    _group_words_into_lines [wAt 10 0, wAt 12 1, wAt 50 2, wAt 51 3] =
      [[wAt 10 0, wAt 12 1], [wAt 50 2, wAt 51 3]]
    ∧ ∃ b bs, [wAt 10 0, wAt 12 1] = b :: bs ∧
        ∀ w ∈ [wAt 10 0, wAt 12 1], ratAbs (w.top - b.top) < 5 := by
  have h := c5_group_words [wAt 10 0, wAt 12 1, wAt 50 2, wAt 51 3]
  have hex := h.2.2.2.2.2.2
  refine ⟨hex, ?_⟩
  exact h.2.2.2.2.1 [wAt 10 0, wAt 12 1] (by rw [hex]; simp)

/-- Counterexample for C5: word units at vertical positions `0` and `5` are
split into two lines by the code although their positions do not differ by
strictly more than the tolerance `5` — the code starts a new line already
at a difference of exactly `5`, contradicting the claim's
"differs … by more than the tolerance of 5". -/
theorem c5_counterexample :
    _group_words_into_lines [wAt 0 0, wAt 5 1] = [[wAt 0 0], [wAt 5 1]]
    ∧ ¬ (5 < ratAbs ((wAt 5 1).top - (wAt 0 0).top)) := by
  constructor
  · have h0 : _group_words_into_lines [wAt 0 0, wAt 5 1] =
        groupWordsAux [wAt 5 1] [wAt 0 0] (wAt 0 0).top := rfl
    rw [h0]
    norm_num [groupWordsAux, ratAbs, wAt]
  · norm_num [wAt, ratAbs]

/-! ## C6: TOC line parsing -/

theorem parse_spec (line : List Word) (pn : Nat) :
    ((natOfDigits (trailingDigits (lineText line).toList) < 1 ∨
        1000 < natOfDigits (trailingDigits (lineText line).toList)) →
      _parse_toc_line line pn = none)
    ∧ (titleOf (lineText line).toList
          (natOfDigits (trailingDigits (lineText line).toList)) = [] →
        _parse_toc_line line pn = none)
    ∧ (∀ e, _parse_toc_line line pn = some e →
        ∃ p, e.page_number = some p ∧ 1 ≤ p ∧ p ≤ 1000 ∧
          e.title = String.mk (titleOf (lineText line).toList p) ∧
          e.title ≠ "" ∧
          e.raw_text = lineText line ∧
          e.confidence = 7/10
            + (if ((titleOf (lineText line).toList p).headD 'a').isUpper
                then (1:ℚ)/10 else 0)
            + (if (Nat.repr p).toList.isSuffixOf (lineText line).toList
                then (1:ℚ)/10 else 0)
            + (if hasTripleDot (lineText line).toList then (1:ℚ)/10 else 0)) := by
  cases line with
  | nil =>
    refine ⟨fun _ => rfl, fun _ => rfl, fun e he => ?_⟩
    exact absurd he (by simp [_parse_toc_line])
  | cons w rest =>
    refine ⟨?_, ?_, ?_⟩
    · intro hrange
      unfold _parse_toc_line
      dsimp only
      split
      · rfl
      · split
        · rfl
        · exfalso
          rename_i hcond
          simp only [Bool.or_eq_true, decide_eq_true_eq, not_or, not_lt] at hcond
          rcases hrange with h | h
          · exact absurd h (not_lt.mpr hcond.1)
          · exact absurd h (not_lt.mpr hcond.2)
    · intro htitle
      unfold _parse_toc_line
      dsimp only
      split
      · rfl
      · split
        · rfl
        · split
          · rfl
          · exfalso
            rename_i hne
            exact hne (by rw [htitle]; rfl)
    · intro e he
      unfold _parse_toc_line at he
      dsimp only at he
      split at he
      · exact absurd he (by simp)
      · split at he
        · exact absurd he (by simp)
        · split at he
          · exact absurd he (by simp)
          · rename_i hrange htit
            simp only [Bool.or_eq_true, decide_eq_true_eq, not_or, not_lt] at hrange
            have he' := Option.some.inj he
            subst he'
            refine ⟨natOfDigits (trailingDigits (lineText (w :: rest)).toList),
              rfl, hrange.1, hrange.2, rfl, ?_, rfl, ?_⟩
            · intro hstr
              have hdata : titleOf (lineText (w :: rest)).toList
                  (natOfDigits (trailingDigits (lineText (w :: rest)).toList)) = [] :=
                congrArg String.data hstr
              exact htit (by rw [hdata]; rfl)
            · split_ifs <;> norm_num

/-- C6 (amended): `_parse_toc_line` returns no entry when the trailing
number is outside `1–1000` or when no non-empty title remains after
stripping the number and leader runs; when it returns an entry, the entry's
confidence equals a base of `0.7` plus `0.1` for each of: the (cleaned)
title starts with an uppercase letter, the line text ends with the decimal
digits of the page number, and the line contains a run of at least three
consecutive `'.'` characters (NOT merely "dot-leader characters are
present": a two-dot or middle-dot leader earns no bonus, see the
counterexample). -/
theorem c6_parse_toc_line (line : List Word) (pn : Nat) :
    ((natOfDigits (trailingDigits (lineText line).toList) < 1 ∨
        1000 < natOfDigits (trailingDigits (lineText line).toList)) →
      _parse_toc_line line pn = none)
    ∧ (titleOf (lineText line).toList
          (natOfDigits (trailingDigits (lineText line).toList)) = [] →
        _parse_toc_line line pn = none)
    ∧ (∀ e, _parse_toc_line line pn = some e →
        ∃ p, e.page_number = some p ∧ 1 ≤ p ∧ p ≤ 1000 ∧ e.title ≠ "" ∧
          e.confidence = 7/10
            + (if ((titleOf (lineText line).toList p).headD 'a').isUpper
                then (1:ℚ)/10 else 0)
            + (if (Nat.repr p).toList.isSuffixOf (lineText line).toList
                then (1:ℚ)/10 else 0)
            + (if hasTripleDot (lineText line).toList then (1:ℚ)/10 else 0)) := by
  obtain ⟨h1, h2, h3⟩ := parse_spec line pn
  refine ⟨h1, h2, ?_⟩
  intro e he
  obtain ⟨p, hp, hp1, hp2, -, hne, -, hconf⟩ := h3 e he
  exact ⟨p, hp, hp1, hp2, hne, hconf⟩

/-- Witness for C6: on the line `"Chapter" "..." "5"` the parser returns an
entry with nonempty title and all three bonuses, confidence `1.0`. -/
theorem c6_parse_toc_line_witness :
    entryChapter.confidence = 1 ∧ entryChapter.title ≠ "" := by
  obtain ⟨p, hp, -, -, hne, hconf⟩ := (c6_parse_toc_line lineChapter 1).2.2 entryChapter rfl
  have hp5 : p = 5 := by
    have : some 5 = some p := hp
    exact (Option.some.inj this).symm
  subst hp5
  refine ⟨?_, hne⟩
  rw [hconf, if_pos (by decide), if_pos (by decide), if_pos (by decide)]
  norm_num

/-- Counterexample for C6: on the line `"A.." "5"` dot-leader characters are
present (a two-dot run, recognised by the code's own cleanup regex), the
title starts uppercase and the page number ends the line, yet the
confidence is `0.9`, not the `1.0` the claim's formula demands — the code's
dot bonus fires only on a run of three or more ASCII dots. -/
theorem c6_counterexample :
    _parse_toc_line lineA5 3 = some entryA5
    ∧ hasLeaderRun entryA5.raw_text.toList = true
    ∧ (entryA5.title.toList.headD 'a').isUpper = true
    ∧ (Nat.repr 5).toList.isSuffixOf entryA5.raw_text.toList = true
    ∧ entryA5.confidence = 9/10
    ∧ ¬ ((9:ℚ)/10 = 7/10 + 1/10 + 1/10 + 1/10) := by
  refine ⟨rfl, by decide, by decide, by decide, by norm_num [entryA5], by norm_num⟩

/-! ## C9: the ML strategy's per-entry boost -/

theorem parse_conf_bounds (line : List Word) (pn : Nat) (e : TOCEntry)
    (he : _parse_toc_line line pn = some e) :
    7/10 ≤ e.confidence ∧ e.confidence ≤ 1 := by
  obtain ⟨p, -, -, -, -, -, -, hconf⟩ := (parse_spec line pn).2.2 e he
  rw [hconf]
  constructor <;> split_ifs <;> norm_num

/-- C9 (amended): in the ML strategy every candidate produced by the reused
line parser has its confidence multiplied by the fixed factor `1.2` with
NO clamping, so an emitted candidate's confidence lies in `(0, 1.2]` and can
exceed `1` (see the counterexample). -/
theorem c9_ml_boost (lines : List (List Word)) (page_idx : Nat) :
    ∀ e ∈ mlEntriesOfLines lines page_idx,
      (∃ line ∈ lines, ∃ e0, _parse_toc_line line (page_idx + 1) = some e0 ∧
        e = mlBoostEntry e0 ∧ e.confidence = e0.confidence * (12/10))
      ∧ 0 < e.confidence ∧ e.confidence ≤ 12/10 := by
  intro e he
  unfold mlEntriesOfLines at he
  rw [List.mem_filterMap] at he
  obtain ⟨line, hline, hmap⟩ := he
  cases hpar : _parse_toc_line line (page_idx + 1) with
  | none => rw [hpar] at hmap; cases hmap
  | some e0 =>
    rw [hpar] at hmap
    have he' := Option.some.inj hmap
    subst he'
    obtain ⟨hb1, hb2⟩ := parse_conf_bounds line (page_idx + 1) e0 hpar
    have hpos : (0:ℚ) < e0.confidence := lt_of_lt_of_le (by norm_num) hb1
    refine ⟨⟨line, hline, e0, hpar, rfl, rfl⟩, ?_, ?_⟩
    · show (0:ℚ) < e0.confidence * (12/10)
      exact mul_pos hpos (by norm_num)
    · show e0.confidence * (12/10) ≤ 12/10
      calc e0.confidence * (12/10) ≤ 1 * (12/10) :=
            mul_le_mul_of_nonneg_right hb2 (by norm_num)
        _ = 12/10 := by norm_num

/-- Witness for C9 (amended): the boosted entry for the line
`"Intro" "..." "7"` has confidence in `(0, 1.2]`. -/
theorem c9_ml_boost_witness :
    0 < entryIntro.confidence ∧ entryIntro.confidence ≤ 12/10 := by
  have h := c9_ml_boost [lineIntro] 0 entryIntro
    (show entryIntro ∈ [entryIntro] from List.mem_singleton.mpr rfl)
  exact ⟨h.2.1, h.2.2⟩

/-- Counterexample for C9: the parser gives the line `"Intro" "..." "7"`
confidence `1.0`; the ML strategy multiplies it by `1.2` and does NOT clamp,
emitting a candidate whose confidence `1.2` is outside `[0, 1]`. -/
theorem c9_counterexample :
    mlEntriesOfLines [lineIntro] 0 = [entryIntro]
    ∧ entryIntro.confidence = 12/10
    ∧ ¬ (entryIntro.confidence ≤ 1) := by
  refine ⟨rfl, by norm_num [entryIntro], by norm_num [entryIntro]⟩

/-! ## C7: overall confidence -/

theorem dedup_length_gt_one {α : Type} [DecidableEq α] (l : List α) :
    1 < l.dedup.length ↔ ∃ a ∈ l, ∃ b ∈ l, a ≠ b := by
  constructor
  · intro h
    rcases hd : l.dedup with - | ⟨a, - | ⟨b, t⟩⟩
    · rw [hd] at h; simp at h
    · rw [hd] at h; simp at h
    · have ha : a ∈ l := List.mem_dedup.mp (by rw [hd]; simp)
      have hb : b ∈ l := List.mem_dedup.mp (by rw [hd]; simp)
      have hnd := List.nodup_dedup l
      rw [hd] at hnd
      have hab : a ≠ b := (List.pairwise_cons.mp hnd).1 b (by simp)
      exact ⟨a, ha, b, hb, hab⟩
  · rintro ⟨a, ha, b, hb, hab⟩
    by_contra hle
    push_neg at hle
    rcases hd : l.dedup with - | ⟨c, - | ⟨d, t⟩⟩
    · exact absurd (List.mem_dedup.mpr ha) (by rw [hd]; simp)
    · have ha' : a ∈ l.dedup := List.mem_dedup.mpr ha
      have hb' : b ∈ l.dedup := List.mem_dedup.mpr hb
      rw [hd] at ha' hb'
      rw [List.mem_singleton.mp ha', List.mem_singleton.mp hb'] at hab
      exact hab rfl
    · rw [hd] at hle
      simp at hle

/-- C7: for a non-empty entry list `_calculate_confidence` equals the
average of the entries' confidences plus a `0.1` bonus when some entry has
a page number and a further `0.1` bonus when the entries span more than one
distinct level, the sum capped at `1`; with entry confidences in `[0, ∞)`
the result always lies in `[0, 1]`; for an empty list it is `0`. -/
theorem c7_calculate_confidence (entries : List TOCEntry) :
    _calculate_confidence [] = 0
    ∧ (entries ≠ [] →
        _calculate_confidence entries =
          min ((entries.map TOCEntry.confidence).sum / (entries.length : ℚ)
            + ((if ∃ e ∈ entries, e.page_number.isSome then (1:ℚ)/10 else 0)
              + (if ∃ a ∈ entries, ∃ b ∈ entries, a.level ≠ b.level
                  then (1:ℚ)/10 else 0))) 1)
    ∧ ((∀ e ∈ entries, 0 ≤ e.confidence) →
        0 ≤ _calculate_confidence entries ∧ _calculate_confidence entries ≤ 1) := by
  have hcond1 : ((entries.any fun e => e.page_number.isSome) = true) ↔
      (∃ e ∈ entries, e.page_number.isSome = true) := List.any_eq_true
  have hcond2 : (1 < ((entries.map TOCEntry.level).dedup).length) ↔
      (∃ a ∈ entries, ∃ b ∈ entries, a.level ≠ b.level) := by
    rw [dedup_length_gt_one]
    constructor
    · rintro ⟨x, hx, y, hy, hxy⟩
      obtain ⟨a, ha, rfl⟩ := List.mem_map.mp hx
      obtain ⟨b, hb, rfl⟩ := List.mem_map.mp hy
      exact ⟨a, ha, b, hb, hxy⟩
    · rintro ⟨a, ha, b, hb, hab⟩
      exact ⟨a.level, List.mem_map.mpr ⟨a, ha, rfl⟩,
        b.level, List.mem_map.mpr ⟨b, hb, rfl⟩, hab⟩
  refine ⟨rfl, ?_, ?_⟩
  · intro hne
    unfold _calculate_confidence
    rw [if_neg hne]
    dsimp only
    rw [if_congr hcond1 rfl rfl, if_congr hcond2 rfl rfl]
  · intro hpos
    rcases eq_or_ne entries [] with rfl | hne
    · exact ⟨le_refl _, by norm_num [_calculate_confidence]⟩
    · unfold _calculate_confidence
      rw [if_neg hne]
      dsimp only
      constructor
      · apply le_min _ (by norm_num)
        apply add_nonneg
        · apply div_nonneg
          · apply List.sum_nonneg
            intro x hx
            obtain ⟨e, he, rfl⟩ := List.mem_map.mp hx
            exact hpos e he
          · exact_mod_cast Nat.zero_le _
        · split_ifs <;> norm_num
      · exact min_le_right _ _

/-- Witness for C7: on two entries with confidences `0.9` and `0.7`, page
numbers present and two distinct levels, the overall confidence is
`min (0.8 + 0.2) 1 = 1`, inside `[0, 1]`. -/
theorem c7_calculate_confidence_witness :
    _calculate_confidence entriesC7 = 1
    ∧ 0 ≤ _calculate_confidence entriesC7
    ∧ _calculate_confidence entriesC7 ≤ 1 := by
  have h := c7_calculate_confidence entriesC7
  have heq := h.2.1 (by simp [entriesC7])
  have hbounds := h.2.2 (by
    intro e he
    simp only [entriesC7, List.mem_cons, List.not_mem_nil, or_false] at he
    rcases he with rfl | rfl <;> norm_num [e7a, e7b])
  refine ⟨?_, hbounds.1, hbounds.2⟩
  rw [heq, if_pos ⟨e7a, by simp [entriesC7], by simp [e7a]⟩,
    if_pos ⟨e7a, by simp [entriesC7], e7b, by simp [entriesC7], by simp [e7a, e7b]⟩]
  have hval : (List.map TOCEntry.confidence entriesC7).sum / (entriesC7.length : ℚ)
      + ((1:ℚ)/10 + 1/10) = 1 := by
    norm_num [entriesC7, e7a, e7b]
  rw [hval, min_self]

/-! ## The arbiter loop: lemmas for C1, C2, C3 -/

theorem runMethods_raises_eq (s : String) (ms : List MethodOutcome)
    (best : Option TOCResult) (c : ℚ) :
    runMethods (.raises s :: ms) best c = bump (runMethods ms best c) true := rfl

theorem runMethods_null_eq (ms : List MethodOutcome)
    (best : Option TOCResult) (c : ℚ) :
    runMethods (.nullResult :: ms) best c = bump (runMethods ms best c) false := rfl

theorem runMethods_success_eq (r : TOCResult) (ms : List MethodOutcome)
    (best : Option TOCResult) (c : ℚ) :
    runMethods (.success r :: ms) best c =
      if c < r.confidence_score then
        if (9:ℚ)/10 < r.confidence_score then (some r, 1, 0)
        else bump (runMethods ms (some r) r.confidence_score) false
      else bump (runMethods ms best c) false := rfl

theorem getLast?_cons_ne_nil {α : Type} (a : α) (xs : List α) (h : xs ≠ []) :
    (a :: xs).getLast? = xs.getLast? := by
  cases xs with
  | nil => exact absurd rfl h
  | cons b ys => exact List.getLast?_cons_cons

theorem countRaises_cons (m : MethodOutcome) (xs : List MethodOutcome) :
    countRaises (m :: xs) = countRaises xs +
      (match m with | .raises _ => 1 | _ => 0) := by
  unfold countRaises
  rw [List.countP_cons]
  cases m <;> simp

theorem runMethods_count_le (l : List MethodOutcome) :
    ∀ (best : Option TOCResult) (c : ℚ), (runMethods l best c).2.1 ≤ l.length := by
  induction l with
  | nil => intro best c; simp [runMethods]
  | cons m ms ih =>
    intro best c
    cases m with
    | raises s =>
      rw [runMethods_raises_eq]
      have := ih best c
      simp only [bump, List.length_cons]
      omega
    | nullResult =>
      rw [runMethods_null_eq]
      have := ih best c
      simp only [bump, List.length_cons]
      omega
    | success r =>
      rw [runMethods_success_eq]
      split_ifs with h1 h2
      · simp
      · have := ih (some r) r.confidence_score
        simp only [bump, List.length_cons]
        omega
      · have := ih best c
        simp only [bump, List.length_cons]
        omega

theorem runMethods_pos (l : List MethodOutcome) (hl : l ≠ []) :
    ∀ (best : Option TOCResult) (c : ℚ), 1 ≤ (runMethods l best c).2.1 := by
  cases l with
  | nil => exact absurd rfl hl
  | cons m ms =>
    intro best c
    cases m with
    | raises s => rw [runMethods_raises_eq]; simp [bump]
    | nullResult => rw [runMethods_null_eq]; simp [bump]
    | success r =>
      rw [runMethods_success_eq]
      split_ifs <;> simp [bump]

theorem runMethods_stop_high (l : List MethodOutcome) :
    ∀ (best : Option TOCResult) (c : ℚ),
      (runMethods l best c).2.1 < l.length →
      ∃ b, (runMethods l best c).1 = some b ∧ (9:ℚ)/10 < b.confidence_score := by
  induction l with
  | nil => intro best c h; simp [runMethods] at h
  | cons m ms ih =>
    intro best c h
    cases m with
    | raises s =>
      rw [runMethods_raises_eq] at h ⊢
      simp only [bump, List.length_cons] at h
      exact ih best c (by omega)
    | nullResult =>
      rw [runMethods_null_eq] at h ⊢
      simp only [bump, List.length_cons] at h
      exact ih best c (by omega)
    | success r =>
      rw [runMethods_success_eq] at h ⊢
      split_ifs at h ⊢ with h1 h2
      · exact ⟨r, rfl, h2⟩
      · simp only [bump, List.length_cons] at h
        exact ih (some r) r.confidence_score (by omega)
      · simp only [bump, List.length_cons] at h
        exact ih best c (by omega)

theorem runMethods_conf_le (l : List MethodOutcome) :
    ∀ (best : Option TOCResult) (c : ℚ), Linked best c →
      ∀ b, (runMethods l best c).1 = some b → c ≤ b.confidence_score := by
  induction l with
  | nil =>
    intro best c hl b hb
    simp only [runMethods] at hb
    rw [hb] at hl
    exact le_of_eq hl
  | cons m ms ih =>
    intro best c hl b hb
    cases m with
    | raises s => exact ih best c hl b hb
    | nullResult => exact ih best c hl b hb
    | success r =>
      rw [runMethods_success_eq] at hb
      split_ifs at hb with h1 h2
      · have : r = b := Option.some.inj hb
        exact le_of_lt (this ▸ h1)
      · exact (le_of_lt h1).trans (ih (some r) r.confidence_score rfl b hb)
      · exact ih best c hl b hb

theorem runMethods_high_last (l : List MethodOutcome) :
    ∀ (best : Option TOCResult) (c : ℚ), Linked best c →
      (∀ b0, best = some b0 → b0.confidence_score ≤ 9/10) →
      ∀ b, (runMethods l best c).1 = some b → (9:ℚ)/10 < b.confidence_score →
        (l.take (runMethods l best c).2.1).getLast? = some (.success b) := by
  induction l with
  | nil =>
    intro best c _ hcap b hb hhigh
    simp only [runMethods] at hb
    exact absurd hhigh (not_lt.mpr (hcap b hb))
  | cons m ms ih =>
    intro best c hl hcap b hb hhigh
    cases m with
    | raises s =>
      rw [runMethods_raises_eq] at hb ⊢
      simp only [bump] at hb ⊢
      have hih := ih best c hl hcap b hb hhigh
      have hne : ms.take (runMethods ms best c).2.1 ≠ [] := by
        intro hnil
        rw [hnil] at hih
        cases hih
      rw [List.take_succ_cons, getLast?_cons_ne_nil _ _ hne]
      exact hih
    | nullResult =>
      rw [runMethods_null_eq] at hb ⊢
      simp only [bump] at hb ⊢
      have hih := ih best c hl hcap b hb hhigh
      have hne : ms.take (runMethods ms best c).2.1 ≠ [] := by
        intro hnil
        rw [hnil] at hih
        cases hih
      rw [List.take_succ_cons, getLast?_cons_ne_nil _ _ hne]
      exact hih
    | success r =>
      rw [runMethods_success_eq] at hb ⊢
      split_ifs at hb ⊢ with h1 h2
      · have : r = b := Option.some.inj hb
        subst this
        rfl
      · simp only [bump] at hb ⊢
        have hih := ih (some r) r.confidence_score rfl
          (fun b0 h0 => by rw [← Option.some.inj h0]; exact not_lt.mp h2) b hb hhigh
        have hne : ms.take (runMethods ms (some r) r.confidence_score).2.1 ≠ [] := by
          intro hnil
          rw [hnil] at hih
          cases hih
        rw [List.take_succ_cons, getLast?_cons_ne_nil _ _ hne]
        exact hih
      · simp only [bump] at hb ⊢
        have hih := ih best c hl hcap b hb hhigh
        have hne : ms.take (runMethods ms best c).2.1 ≠ [] := by
          intro hnil
          rw [hnil] at hih
          cases hih
        rw [List.take_succ_cons, getLast?_cons_ne_nil _ _ hne]
        exact hih

theorem successes_cons_raises (s : String) (xs : List MethodOutcome) :
    successes (.raises s :: xs) = successes xs := rfl

theorem successes_cons_null (xs : List MethodOutcome) :
    successes (.nullResult :: xs) = successes xs := rfl

theorem successes_cons_success (r : TOCResult) (xs : List MethodOutcome) :
    successes (.success r :: xs) = r :: successes xs := rfl

theorem runMethods_max (l : List MethodOutcome) :
    ∀ (best : Option TOCResult) (c : ℚ), Linked best c →
      ∀ b, (runMethods l best c).1 = some b →
      ∀ r ∈ successes (l.take (runMethods l best c).2.1),
        r.confidence_score ≤ b.confidence_score := by
  induction l with
  | nil =>
    intro best c _ b _ r hr
    simp [runMethods, successes] at hr
  | cons m ms ih =>
    intro best c hl b hb r hr
    cases m with
    | raises s =>
      rw [runMethods_raises_eq] at hb hr
      simp only [bump] at hb hr
      rw [List.take_succ_cons, successes_cons_raises] at hr
      exact ih best c hl b hb r hr
    | nullResult =>
      rw [runMethods_null_eq] at hb hr
      simp only [bump] at hb hr
      rw [List.take_succ_cons, successes_cons_null] at hr
      exact ih best c hl b hb r hr
    | success res =>
      rw [runMethods_success_eq] at hb hr
      split_ifs at hb hr with h1 h2
      · have : res = b := Option.some.inj hb
        subst this
        simp only [List.take_succ_cons, List.take_zero, successes_cons_success] at hr
        have : r = res := by
          rcases List.mem_cons.mp hr with h | h
          · exact h
          · simp [successes] at h
        exact le_of_eq (by rw [this])
      · simp only [bump] at hb hr
        rw [List.take_succ_cons, successes_cons_success] at hr
        rcases List.mem_cons.mp hr with rfl | hr'
        · exact runMethods_conf_le ms (some r) r.confidence_score rfl b hb
        · exact ih (some res) res.confidence_score rfl b hb r hr'
      · simp only [bump] at hb hr
        rw [List.take_succ_cons, successes_cons_success] at hr
        rcases List.mem_cons.mp hr with rfl | hr'
        · exact (not_lt.mp h1).trans (runMethods_conf_le ms best c hl b hb)
        · exact ih best c hl b hb r hr'

theorem runMethods_mem (l : List MethodOutcome) :
    ∀ (best : Option TOCResult) (c : ℚ),
      ∀ b, (runMethods l best c).1 = some b →
        best = some b ∨ b ∈ successes (l.take (runMethods l best c).2.1) := by
  induction l with
  | nil =>
    intro best c b hb
    exact Or.inl hb
  | cons m ms ih =>
    intro best c b hb
    cases m with
    | raises s =>
      rw [runMethods_raises_eq] at hb ⊢
      simp only [bump] at hb ⊢
      rw [List.take_succ_cons, successes_cons_raises]
      exact ih best c b hb
    | nullResult =>
      rw [runMethods_null_eq] at hb ⊢
      simp only [bump] at hb ⊢
      rw [List.take_succ_cons, successes_cons_null]
      exact ih best c b hb
    | success res =>
      rw [runMethods_success_eq] at hb ⊢
      split_ifs at hb ⊢ with h1 h2
      · have : res = b := Option.some.inj hb
        subst this
        exact Or.inr (by simp [successes])
      · simp only [bump] at hb ⊢
        rw [List.take_succ_cons, successes_cons_success]
        rcases ih (some res) res.confidence_score b hb with h | h
        · exact Or.inr (by rw [← Option.some.inj h]; simp)
        · exact Or.inr (List.mem_cons_of_mem _ h)
      · simp only [bump] at hb ⊢
        rw [List.take_succ_cons, successes_cons_success]
        rcases ih best c b hb with h | h
        · exact Or.inl h
        · exact Or.inr (List.mem_cons_of_mem _ h)

theorem runMethods_warn (l : List MethodOutcome) :
    ∀ (best : Option TOCResult) (c : ℚ),
      (runMethods l best c).2.2 = countRaises (l.take (runMethods l best c).2.1) := by
  induction l with
  | nil => intro best c; simp [runMethods, countRaises]
  | cons m ms ih =>
    intro best c
    cases m with
    | raises s =>
      rw [runMethods_raises_eq]
      simp only [bump, List.take_succ_cons, countRaises_cons, ih best c]
      simp
    | nullResult =>
      rw [runMethods_null_eq]
      simp only [bump, List.take_succ_cons, countRaises_cons, ih best c]
      simp
    | success r =>
      rw [runMethods_success_eq]
      split_ifs with h1 h2
      · simp [countRaises]
      · simp only [bump, List.take_succ_cons, countRaises_cons,
          ih (some r) r.confidence_score]
        simp
      · simp only [bump, List.take_succ_cons, countRaises_cons, ih best c]
        simp

theorem runMethods_last_raise (l : List MethodOutcome) :
    ∀ (best : Option TOCResult) (c : ℚ) (s : String),
      (l.take (runMethods l best c).2.1).getLast? = some (.raises s) →
      (runMethods l best c).2.1 = l.length := by
  induction l with
  | nil =>
    intro best c s h
    simp [runMethods] at h
  | cons m ms ih =>
    intro best c s h
    cases m with
    | raises s' =>
      rw [runMethods_raises_eq] at h ⊢
      simp only [bump, List.take_succ_cons] at h ⊢
      cases hxs : ms.take (runMethods ms best c).2.1 with
      | nil =>
        rcases List.take_eq_nil_iff.mp hxs with h0 | h0
        · by_cases hms : ms = []
          · subst hms
            simp [runMethods]
          · exact absurd h0 (by have := runMethods_pos ms hms best c; omega)
        · subst h0
          simp [runMethods]
      | cons x xs =>
        rw [hxs] at h
        rw [getLast?_cons_ne_nil _ _ (by simp)] at h
        rw [← hxs] at h
        have := ih best c s h
        simp [List.length_cons, this]
    | nullResult =>
      rw [runMethods_null_eq] at h ⊢
      simp only [bump, List.take_succ_cons] at h ⊢
      cases hxs : ms.take (runMethods ms best c).2.1 with
      | nil =>
        rw [hxs] at h
        simp at h
      | cons x xs =>
        rw [hxs] at h
        rw [getLast?_cons_ne_nil _ _ (by simp)] at h
        rw [← hxs] at h
        have := ih best c s h
        simp [List.length_cons, this]
    | success r =>
      rw [runMethods_success_eq] at h ⊢
      split_ifs at h ⊢ with h1 h2
      · simp at h
      · simp only [bump, List.take_succ_cons] at h ⊢
        cases hxs : ms.take (runMethods ms (some r) r.confidence_score).2.1 with
        | nil =>
          rw [hxs] at h
          simp at h
        | cons x xs =>
          rw [hxs] at h
          rw [getLast?_cons_ne_nil _ _ (by simp)] at h
          rw [← hxs] at h
          have := ih (some r) r.confidence_score s h
          simp [List.length_cons, this]
      · simp only [bump, List.take_succ_cons] at h ⊢
        cases hxs : ms.take (runMethods ms best c).2.1 with
        | nil =>
          rw [hxs] at h
          simp at h
        | cons x xs =>
          rw [hxs] at h
          rw [getLast?_cons_ne_nil _ _ (by simp)] at h
          rw [← hxs] at h
          have := ih best c s h
          simp [List.length_cons, this]

theorem runMethods_no_success (l : List MethodOutcome) :
    ∀ (best : Option TOCResult) (c : ℚ), successes l = [] →
      runMethods l best c = (best, l.length, countRaises l) := by
  induction l with
  | nil => intro best c _; simp [runMethods, countRaises]
  | cons m ms ih =>
    intro best c h
    cases m with
    | raises s =>
      rw [successes_cons_raises] at h
      rw [runMethods_raises_eq, ih best c h]
      simp [bump, countRaises, List.countP_cons]
    | nullResult =>
      rw [successes_cons_null] at h
      rw [runMethods_null_eq, ih best c h]
      simp [bump, countRaises, List.countP_cons]
    | success r =>
      rw [successes_cons_success] at h
      cases h

/-! ## C1 -/

/-- C1: the arbiter invokes the strategy methods one at a time in the fixed
list order, inspecting only a prefix; it keeps a result with the maximal
confidence among the invoked strategies' results; it stops before the end
of the list only when a result with confidence above `0.9` has been
obtained, and any such result is produced by the last method invoked (no
lower-priority method is invoked after it); in particular, when the first
(native-outline) method returns confidence `1.0` the loop invokes exactly
that one method. -/
theorem c1_arbiter_early_stop (l : List MethodOutcome) :
    (runMethods l none 0).2.1 ≤ l.length
    ∧ ((runMethods l none 0).2.1 < l.length →
        ∃ b, (runMethods l none 0).1 = some b ∧ (9:ℚ)/10 < b.confidence_score)
    ∧ (∀ b, (runMethods l none 0).1 = some b → (9:ℚ)/10 < b.confidence_score →
        (l.take (runMethods l none 0).2.1).getLast? = some (.success b))
    ∧ (∀ b, (runMethods l none 0).1 = some b →
        b ∈ successes (l.take (runMethods l none 0).2.1)
        ∧ ∀ r ∈ successes (l.take (runMethods l none 0).2.1),
            r.confidence_score ≤ b.confidence_score)
    ∧ (∀ (r : TOCResult) (ms : List MethodOutcome),
        l = .success r :: ms → r.confidence_score = 1 →
        runMethods l none 0 = (some r, 1, 0)) := by
  refine ⟨runMethods_count_le l none 0, runMethods_stop_high l none 0,
    runMethods_high_last l none 0 rfl (fun b0 h0 => nomatch h0), ?_, ?_⟩
  · intro b hb
    refine ⟨?_, runMethods_max l none 0 rfl b hb⟩
    rcases runMethods_mem l none 0 b hb with h | h
    · exact nomatch h
    · exact h
  · rintro r ms rfl hr
    rw [runMethods_success_eq,
      if_pos (show (0:ℚ) < r.confidence_score by rw [hr]; norm_num),
      if_pos (show (9:ℚ)/10 < r.confidence_score by rw [hr]; norm_num)]

/-- Witness for C1: a native-outline hit of confidence `1.0` in first
position makes the arbiter adopt it after exactly one invocation. -/
theorem c1_arbiter_early_stop_witness :
    runMethods [MethodOutcome.success nativeHit] none 0 = (some nativeHit, 1, 0) :=
  (c1_arbiter_early_stop [MethodOutcome.success nativeHit]).2.2.2.2 nativeHit [] rfl rfl

/-! ## C2 -/

/-- C2: whatever result wins arbitration, `extract_from_file` returns it
with exactly those entries whose confidence is at least `min_confidence`
kept, in their original order (the filtered list is a sublist of the
original). -/
theorem c2_min_confidence_filter (pdf_path : String) (l : List MethodOutcome)
    (min_confidence : ℚ) (b : TOCResult)
    (hb : (runMethods l none 0).1 = some b) :
    ∃ res, extract_from_file true pdf_path l min_confidence = Except.ok res
      ∧ res.method_used = b.method_used
      ∧ res.confidence_score = b.confidence_score
      ∧ res.entries.Sublist b.entries
      ∧ (∀ e, e ∈ res.entries ↔ e ∈ b.entries ∧ min_confidence ≤ e.confidence) := by
  refine ⟨{ b with entries := b.entries.filter (fun e => min_confidence ≤ e.confidence) },
    by simp [extract_from_file, hb], rfl, rfl, List.filter_sublist _, ?_⟩
  intro e
  simp [List.mem_filter]

/-- Witness for C2: with `min_confidence = 0.8` and winning entries of
confidences `[0.9, 0.75, 0.85]`, exactly the `0.9` and `0.85` entries
remain, in that order. -/
theorem c2_min_confidence_filter_witness :
    ∃ res, extract_from_file true "doc.pdf" [MethodOutcome.success winner2] (8/10) =
        Except.ok res
      ∧ res.entries = [entry09, entry085]
      ∧ (∀ e, e ∈ res.entries ↔ e ∈ winner2.entries ∧ (8:ℚ)/10 ≤ e.confidence) := by
  have hbw : (runMethods [MethodOutcome.success winner2] none 0).1 = some winner2 := by
    rw [runMethods_success_eq,
      if_pos (show (0:ℚ) < winner2.confidence_score by norm_num [winner2]),
      if_pos (show (9:ℚ)/10 < winner2.confidence_score by norm_num [winner2])]
  obtain ⟨res, h1, -, -, -, h5⟩ :=
    c2_min_confidence_filter "doc.pdf" [MethodOutcome.success winner2] (8/10) winner2 hbw
  have hfil : winner2.entries.filter (fun e => (8:ℚ)/10 ≤ e.confidence) =
      [entry09, entry085] := by
    simp only [winner2, entry09, entry075, entry085, List.filter_cons, List.filter_nil,
      decide_eq_true_eq]
    norm_num
  have hev : extract_from_file true "doc.pdf" [MethodOutcome.success winner2] (8/10) =
      Except.ok { winner2 with
        entries := winner2.entries.filter (fun e => (8:ℚ)/10 ≤ e.confidence) } := by
    simp [extract_from_file, hbw]
  rw [hev] at h1
  have hres := Except.ok.inj h1
  refine ⟨res, hev.trans (by rw [hres]), ?_, h5⟩
  rw [← hres]
  exact hfil

/-! ## C3 -/

/-- C3: a strategy that raises is counted as a recorded warning and the
loop continues — whenever the last invoked outcome is an exception the
whole list was traversed, so a raise never stops the pipeline; and when
every strategy returns null or raises, `extract_from_file` returns (never
raises) the empty result with `method_used = "none"`,
`confidence_score = 0` and the diagnostic metadata message. -/
theorem c3_failures (pdf_path : String) (l : List MethodOutcome) (min_confidence : ℚ) :
    (runMethods l none 0).2.2 = countRaises (l.take (runMethods l none 0).2.1)
    ∧ (∀ s, (l.take (runMethods l none 0).2.1).getLast? = some (.raises s) →
        (runMethods l none 0).2.1 = l.length)
    ∧ (successes l = [] →
        extract_from_file true pdf_path l min_confidence = Except.ok emptyTOCResult
        ∧ emptyTOCResult.method_used = "none"
        ∧ emptyTOCResult.confidence_score = 0
        ∧ emptyTOCResult.entries = []
        ∧ emptyTOCResult.metadata = [("error", "No TOC could be extracted")]) := by
  refine ⟨runMethods_warn l none 0, runMethods_last_raise l none 0, ?_⟩
  intro h
  have hrun := runMethods_no_success l none 0 h
  exact ⟨by simp [extract_from_file, hrun], rfl, rfl, rfl, rfl⟩

/-- Witness for C3: on the outcome list `[null, raise]` the arbiter records
one warning, traverses the whole list (the raise is not fatal), and returns
the empty zero-confidence result. -/
theorem c3_failures_witness :
    (runMethods [MethodOutcome.nullResult, .raises "boom"] none 0).2.2 = 1
    ∧ (runMethods [MethodOutcome.nullResult, .raises "boom"] none 0).2.1 = 2
    ∧ extract_from_file true "doc.pdf" [MethodOutcome.nullResult, .raises "boom"] (1/2) =
        Except.ok emptyTOCResult := by
  have h := c3_failures "doc.pdf" [MethodOutcome.nullResult, .raises "boom"] (1/2)
  refine ⟨?_, h.2.1 "boom" rfl, (h.2.2 rfl).1⟩
  rw [h.1]
  rfl

end Pdarg
